import Mathlib

/-!
Verification of the annotation ingestion-and-layout pipeline of the
ideogram repository (file `annotations.js`).

The JavaScript source is shallowly embedded: dynamically-typed JS values
become the inductive type `JSVal`, JS objects built by sequential property
assignment become association lists with last-write-wins lookup (`JSObj`),
and the four functions under scrutiny — `processAnnotData`,
`initAnnotSettings`, `fetchAnnots`, `fillAnnots` — become Lean functions
over these types.  Effects are made explicit: `console.warn` calls are
collected in a list of warning strings, a thrown `TypeError` (reading
`.color` of an undefined track entry) is modelled by `Option` failure, and
`fetchAnnots`'s network/DOM effects are reified in a `FetchOutcome` record
describing which request, decoder, alert and state commit the call performs.
-/

namespace Ideogram

/-- A JavaScript value as used by the annotations module: a number
(JS numbers that arise here are modelled by `ℚ`, with `nan` kept as a
separate constructor), a string, a boolean, or `undefined`. -/
inductive JSVal where
  | num (q : ℚ)
  | str (s : String)
  | bool (b : Bool)
  | undef
  | nan
  deriving Repr, DecidableEq

/-- A JavaScript object built by sequential property assignment:
a list of (property, value) pairs in assignment order. -/
abbrev JSObj := List (String × JSVal)

/-- Property write `o[k] = v`: appended, so that the latest write wins
on lookup. -/
def objSet (o : JSObj) (k : String) (v : JSVal) : JSObj := o ++ [(k, v)]

/-- Property read `o[k]`: the latest write to `k`, else `undefined`. -/
def objGet (o : JSObj) (k : String) : JSVal :=
  List.foldl (fun acc p => if p.1 = k then p.2 else acc) (.undef) o

/-- The JS `k in o` test: whether the property was ever assigned. -/
def objHas (o : JSObj) (k : String) : Bool :=
  o.any (fun p => p.1 = k)

/-- JS `+` restricted to the cases exercised by the annotations module:
number plus number.  All other operand combinations (which in JS would
produce `NaN` or a concatenated string, and are excluded by the validity
hypotheses of every theorem below) are collapsed to `nan`. -/
def jsAdd : JSVal → JSVal → JSVal
  | .num a, .num b => .num (a + b)
  | _, _ => .nan

/-- JS `x / 2` on a number; `nan` otherwise. -/
def jsDiv2 : JSVal → JSVal
  | .num a => .num (a / 2)
  | _ => .nan

/-- JS `x / d` for a literal divisor `d`; `nan` otherwise. -/
def jsDiv (v : JSVal) (d : ℚ) : JSVal :=
  match v with
  | .num a => .num (a / d)
  | _ => .nan

/-- JS `x * y` on numbers; `nan` otherwise. -/
def jsMul : JSVal → JSVal → JSVal
  | .num a, .num b => .num (a * b)
  | _, _ => .nan

/-- `Math.round`: nearest integer, ties toward positive infinity, which
is exactly Mathlib's `round` on `ℚ`; `Math.round(NaN)` is `NaN`. -/
def jsRound : JSVal → JSVal
  | .num a => .num ((round a : ℤ) : ℚ)
  | _ => .nan

/-- Application of a numeric function (the coordinate mapper) to a JS
value; non-numbers map to `nan`. -/
def jsConvert (f : ℚ → ℚ) : JSVal → JSVal
  | .num a => .num (f a)
  | _ => .nan

/-- JS truthiness for the values of `JSVal`. -/
def jsTruthy : JSVal → Bool
  | .num q => q ≠ 0
  | .str s => s ≠ ""
  | .bool b => b
  | .undef => false
  | .nan => false

/-- One entry of a configured annotation track list: an object whose
`color` and `shape` properties are read by `processAnnotData`. -/
structure Track where
  color : JSVal
  shape : JSVal
  deriving Repr, DecidableEq

/-- JS array indexing `tracks[v]` followed by a property read on the
result: defined when `v` is a nonnegative integral number within bounds,
and a failure (`none`, the JS `TypeError` on reading `.color` of
`undefined`) otherwise.  (JS would additionally coerce numeric strings to
indices; no claim exercises that case.) -/
def jsIndex (ts : List Track) : JSVal → Option Track
  | .num q => if q.den = 1 ∧ 0 ≤ q.num then ts[q.num.toNat]? else none
  | _ => none

/-- The `annot[keys[k]] = ra[k]` loop: zip the `keys` schema against one
raw value tuple, missing positions reading as `undefined`. -/
def buildFields : List String → List JSVal → JSObj
  | [], _ => []
  | k :: ks, [] => (k, .undef) :: buildFields ks []
  | k :: ks, v :: vs => (k, v) :: buildFields ks vs

/-- One entry of `ideo.chromosomesArray`; only its `name` property is read
by `fillAnnots`. -/
structure ChrEntry where
  name : String
  deriving Repr, DecidableEq

/-- One raw per-chromosome group `{chr, annots}` of a RawAnnotationSet:
`annots` is a list of positional value tuples. -/
structure RawGroup where
  chr : String
  annots : List (List JSVal)
  deriving Repr, DecidableEq

/-- A RawAnnotationSet `{keys, annots}` as consumed by `processAnnotData`. -/
structure RawAnnots where
  keys : List String
  annots : List RawGroup
  deriving Repr, DecidableEq

/-- A per-chromosome group of processed values: `{chr, annots}`.  The
payload type is a parameter because `fillAnnots` never inspects it. -/
structure Group (α : Type) where
  chr : String
  annots : List α
  deriving Repr, DecidableEq

/-- A per-chromosome group of resolved annotation objects. -/
abbrev ChrGroup := Group JSObj

/-- The fields of the ideogram instance (and of `ideo.config`) that
`processAnnotData` reads.  `C` is the type of chromosome models;
`chromosomes` models the two-level table `ideo.chromosomes[taxid][chr]`;
`convertBpToPx` is the coordinate-mapper method. -/
structure Ideo (C : Type) where
  taxid : String
  chromosomes : String → String → Option C
  convertBpToPx : C → ℚ → ℚ
  annotationsColor : JSVal
  annotationTracks : Option (List Track)
  chromosomesArray : List ChrEntry

/-- The trailing property assignments of the per-annotation loop body
(lines `annot.chr = chr` through `annot.shape = shape`). -/
def finishAnnot (o : JSObj) (chr : String) (i : ℕ)
    (px startPx stopPx color shape : JSVal) : JSObj :=
  objSet (objSet (objSet (objSet (objSet (objSet (objSet o
    "chr" (.str chr)) "chrIndex" (.num i)) "px" px)
    "startPx" startPx) "stopPx" stopPx) "color" color) "shape" shape

/-- The body of the inner loop of `processAnnotData` for one raw tuple
`ra`.  `shape0` is the current value of the function-scoped `var shape`
(which, unlike `color`, is NOT reset at the top of an iteration and hence
leaks from one annotation to the next when neither a track list nor an
explicit `shape` field supplies a value); the returned pair carries the
built annotation object and the updated value of that variable.  `none`
is the `TypeError` thrown when a configured track list is indexed at an
invalid `ra[3]`. -/
def processRow {C : Type} (ideo : Ideo C) (chrModel : C) (chr : String)
    (i : ℕ) (keys : List String) (shape0 : JSVal) (ra : List JSVal) :
    Option (JSObj × JSVal) :=
  let fields := buildFields keys ra
  let stop := jsAdd (objGet fields "start") (objGet fields "length")
  let annot1 := objSet fields "stop" stop
  let startPx := jsConvert (ideo.convertBpToPx chrModel) (objGet annot1 "start")
  let stopPx := jsConvert (ideo.convertBpToPx chrModel) (objGet annot1 "stop")
  let px := jsRound (jsDiv2 (jsAdd startPx stopPx))
  match ideo.annotationTracks with
  | some tracks =>
    let annot2 := objSet annot1 "trackIndex" (ra.getD 3 .undef)
    match jsIndex tracks (ra.getD 3 .undef) with
    | none => none
    | some tr =>
      let color := if objHas annot2 "color" then objGet annot2 "color" else tr.color
      let shape := if objHas annot2 "shape" then objGet annot2 "shape" else tr.shape
      some (finishAnnot annot2 chr i px startPx stopPx color shape, shape)
  | none =>
    let annot2 := objSet annot1 "trackIndex" (.num 0)
    let color := if objHas annot2 "color" then objGet annot2 "color"
                 else ideo.annotationsColor
    let shape := if objHas annot2 "shape" then objGet annot2 "shape" else shape0
    some (finishAnnot annot2 chr i px startPx stopPx color shape, shape)

/-- The inner loop of `processAnnotData` over the tuples of one group,
threading the `var shape` state left to right. -/
def processRows {C : Type} (ideo : Ideo C) (chrModel : C) (chr : String)
    (i : ℕ) (keys : List String) :
    JSVal → List (List JSVal) → Option (List JSObj × JSVal)
  | shape0, [] => some ([], shape0)
  | shape0, ra :: rest =>
    match processRow ideo chrModel chr i keys shape0 ra with
    | none => none
    | some (obj, sh) =>
      match processRows ideo chrModel chr i keys sh rest with
      | none => none
      | some (objs, sh') => some (obj :: objs, sh')

/-- The console message of the unknown-chromosome branch. -/
def warnMsg (chr : String) (n : ℕ) : String :=
  "Chromosome \"" ++ chr ++ "\" undefined in ideogram; " ++
  toString n ++ " annotations not shown"

/-- The outer loop of `processAnnotData` over raw chromosome groups.
`i` is the loop counter (used for `chrIndex` even across skipped groups),
`shape0` threads the `var shape` state; the result carries the produced
groups, the warnings printed for unresolvable chromosomes, and the final
shape state. -/
def processGroups {C : Type} (ideo : Ideo C) (keys : List String) :
    ℕ → JSVal → List RawGroup → Option (List ChrGroup × List String × JSVal)
  | _, shape0, [] => some ([], [], shape0)
  | i, shape0, g :: rest =>
    match ideo.chromosomes ideo.taxid g.chr with
    | none =>
      match processGroups ideo keys (i + 1) shape0 rest with
      | none => none
      | some (out, warns, sh) =>
        some (out, warnMsg g.chr g.annots.length :: warns, sh)
    | some chrModel =>
      match processRows ideo chrModel g.chr i keys shape0 g.annots with
      | none => none
      | some (objs, sh) =>
        match processGroups ideo keys (i + 1) sh rest with
        | none => none
        | some (out, warns, sh') =>
          some (⟨g.chr, objs⟩ :: out, warns, sh')

/-- `processAnnotData(rawAnnots)`: the produced group list together with
the warnings printed; `none` is an uncaught `TypeError` from track
resolution. -/
def processAnnotData {C : Type} (ideo : Ideo C) (raw : RawAnnots) :
    Option (List ChrGroup × List String) :=
  match processGroups ideo raw.keys 0 .undef raw.annots with
  | none => none
  | some (out, warns, _) => some (out, warns)

/-- JS `Array.prototype.indexOf`: index of the first occurrence, `none`
standing for `-1`. -/
def jsIndexOf (l : List String) (x : String) : Option ℕ :=
  match l with
  | [] => none
  | y :: ys => if y = x then some 0 else (jsIndexOf ys x).map (· + 1)

/-- The replacement loop of `fillAnnots` over the incoming fragment,
starting from the placeholder list `acc`. -/
def fillAux {α : Type} (chrs : List String) (acc : List (Group α))
    (l : List (Group α)) : List (Group α) :=
  l.foldl (fun acc g =>
    match jsIndexOf chrs g.chr with
    | some k => acc.set k g
    | none => acc) acc

/-- `fillAnnots(annots)`: build one empty placeholder per entry of
`ideo.chromosomesArray`, then replace the placeholder at
`chrs.indexOf(annot.chr)` wholesale by each fragment entry whose `chr`
is found, dropping the rest. -/
def fillAnnots {α : Type} (chromosomesArray : List ChrEntry)
    (annots : List (Group α)) : List (Group α) :=
  fillAux (chromosomesArray.map (·.name))
    (chromosomesArray.map (fun c => ⟨c.name, []⟩)) annots

/-- The fields of `ideo.config` read and written by `initAnnotSettings`.
The track list keeps its structured type (`none` is an absent setting;
a JS array, even an empty one, is truthy). -/
structure Config where
  annotationsPath : JSVal
  localAnnotationsPath : JSVal
  annotations : JSVal
  annotationHeight : JSVal
  chrHeight : JSVal
  annotationTracks : Option (List Track)
  numAnnotTracks : JSVal
  annotTracksHeight : JSVal
  barWidth : JSVal
  annotationsColor : JSVal
  showAnnotTooltip : JSVal
  deriving Repr, DecidableEq

/-- The enablement test of `initAnnotSettings`: any of the remote path,
the local path, already-resident `this.annots` (the boolean argument), or
an inline annotations config is truthy. -/
def annotLayerEnabled (hasAnnots : Bool) (cfg : Config) : Bool :=
  jsTruthy cfg.annotationsPath || jsTruthy cfg.localAnnotationsPath ||
  hasAnnots || jsTruthy cfg.annotations

/-- `initAnnotSettings()` as a function of the config (the capture of
`config.onWillShowAnnotTooltip` into an instance field carries no logic
and is not part of the config record). -/
def initAnnotSettings (hasAnnots : Bool) (cfg : Config) : Config :=
  let cfg1 :=
    if annotLayerEnabled hasAnnots cfg then
      let cfgA :=
        if ¬ jsTruthy cfg.annotationHeight then
          { cfg with annotationHeight := jsRound (jsDiv cfg.chrHeight 100) }
        else cfg
      let nTracks : JSVal :=
        match cfgA.annotationTracks with
        | some ts => .num ts.length
        | none => .num 1
      let cfgB := { cfgA with numAnnotTracks := nTracks }
      let tracksHeight := jsMul cfgB.annotationHeight cfgB.numAnnotTracks
      let cfgC := { cfgB with annotTracksHeight := tracksHeight }
      if cfgC.barWidth = .undef then { cfgC with barWidth := .num 3 } else cfgC
    else
      { cfg with annotTracksHeight := .num 0 }
  let cfg2 :=
    if cfg1.annotationsColor = .undef then
      { cfg1 with annotationsColor := .str "#F00" }
    else cfg1
  if cfg2.showAnnotTooltip ≠ .bool false then
    { cfg2 with showAnnotTooltip := .bool true }
  else cfg2

/-- Which decoder `fetchAnnots` would apply to a successfully fetched
response body. -/
inductive Decoder where
  | jsonBody
  | bedBody
  deriving Repr, DecidableEq

/-- The observable behaviour of one `fetchAnnots` call: the URL it
requests (if any), the decoder it would apply to the response body, the
user-facing alert it raises (if any), and whether a successful response
is committed to `ideo.rawAnnots`. -/
structure FetchOutcome where
  requestUrl : Option String
  decoder : Option Decoder
  alertMsg : Option String
  commits : Bool
  deriving Repr, DecidableEq

/-- JS `String.prototype.toUpperCase` (character-wise; the extensions at
stake are ASCII). -/
def jsToUpper (s : String) : String := String.mk (s.toList.map Char.toUpper)

/-- The alert text of the unsupported-extension branch. -/
def unsupportedMsg (ext : String) : String :=
  "This Ideogram.js only supports BED and Ideogram JSON at the " ++
  "moment.  Sorry, check back soon for " ++ ext ++ " support!"

/-- JS `String.prototype.split` with a one-character separator, over the
character list of a string: always returns at least one (possibly empty)
piece, like JS. -/
def splitChars (sep : Char) : List Char → List (List Char)
  | [] => [[]]
  | c :: rest =>
    if c = sep then [] :: splitChars sep rest
    else
      match splitChars sep rest with
      | [] => [[c]]
      | w :: ws => (c :: w) :: ws

/-- JS `s.split(sep)` for a one-character separator. -/
def jsSplit (s : String) (sep : Char) : List String :=
  (splitChars sep s.toList).map String.mk

/-- `annotsUrl.split('?')[0].split('.')` followed by taking the last
piece: the filename extension with any query string discarded. -/
def extensionOf (url : String) : String :=
  (jsSplit ((jsSplit url '?').headD "") '.').getLastD ""

/-- `fetchAnnots(annotsUrl)`: URLs not beginning with `'http'` fetch the
configured `annotationsPath` and always parse it as JSON; otherwise the
extension selects BED or JSON decoding, and any other extension raises
the unsupported-format alert and commits nothing. -/
def fetchAnnots (annotationsPath : String) (annotsUrl : String) :
    FetchOutcome :=
  if annotsUrl.take 4 ≠ "http" then
    { requestUrl := some annotationsPath, decoder := some .jsonBody,
      alertMsg := none, commits := true }
  else
    let ext := extensionOf annotsUrl
    if ext ≠ "bed" ∧ ext ≠ "json" then
      { requestUrl := none, decoder := none,
        alertMsg := some (unsupportedMsg (jsToUpper ext)), commits := false }
    else
      { requestUrl := some annotsUrl,
        decoder := some (if ext = "bed" then .bedBody else .jsonBody),
        alertMsg := none, commits := true }

/-- Reading a property after a write: the written value when the keys
match, the previous value otherwise. -/
theorem objGet_objSet (o : JSObj) (k k' : String) (v : JSVal) :
    objGet (objSet o k' v) k = if k' = k then v else objGet o k := by
  simp only [objGet, objSet, List.foldl_append, List.foldl_cons, List.foldl_nil]

/-- A property write preserves and extends the `in` test. -/
theorem objHas_objSet (o : JSObj) (k k' : String) (v : JSVal) :
    objHas (objSet o k' v) k = (objHas o k || decide (k' = k)) := by
  simp [objHas, objSet]

/-- Every schema key is a property of the zipped field object. -/
theorem objHas_buildFields (keys : List String) (ra : List JSVal) (k : String)
    (hk : k ∈ keys) : objHas (buildFields keys ra) k = true := by
  induction keys generalizing ra with
  | nil => cases hk
  | cons k0 ks ih =>
    rcases List.mem_cons.mp hk with h | h
    · cases ra <;> simp [buildFields, objHas, h]
    · cases ra with
      | nil =>
        have h2 := ih [] h
        simp only [objHas, buildFields, List.any_cons] at h2 ⊢
        simp [h2]
      | cons v vs =>
        have h2 := ih vs h
        simp only [objHas, buildFields, List.any_cons] at h2 ⊢
        simp [h2]

/-- The rounded midpoint of an interval of length at least one lies in
the interval. -/
theorem round_mid_bounds (p1 p2 : ℚ) (h : p1 + 1 ≤ p2) :
    p1 ≤ (round ((p1 + p2) / 2) : ℚ) ∧ (round ((p1 + p2) / 2) : ℚ) ≤ p2 := by
  have h1 := abs_sub_round ((p1 + p2) / 2)
  rw [abs_le] at h1
  constructor <;> linarith [h1.1, h1.2]

/-- Invariants of every annotation object built by the inner loop body:
the stored `stop` is the JS sum of the stored `start` and `length`; the
stored `px` is the rounded midpoint of the stored pixel bounds;
`chrIndex` is the outer loop counter; `chr` is the group name. -/
theorem processRow_get {C : Type} (ideo : Ideo C) (chrModel : C) (chr : String)
    (i : ℕ) (keys : List String) (shape0 : JSVal) (ra : List JSVal)
    (obj : JSObj) (sh : JSVal)
    (h : processRow ideo chrModel chr i keys shape0 ra = some (obj, sh)) :
    objGet obj "stop" = jsAdd (objGet obj "start") (objGet obj "length") ∧
    objGet obj "px" =
      jsRound (jsDiv2 (jsAdd (objGet obj "startPx") (objGet obj "stopPx"))) ∧
    objGet obj "chrIndex" = JSVal.num i ∧
    objGet obj "chr" = JSVal.str chr := by
  simp only [processRow] at h
  split at h
  · split at h
    · exact Option.noConfusion h
    · simp only [Option.some.injEq, Prod.mk.injEq] at h
      obtain ⟨rfl, rfl⟩ := h
      refine ⟨?_, ?_, ?_, ?_⟩ <;>
        simp [finishAnnot, objGet_objSet]
  · simp only [Option.some.injEq, Prod.mk.injEq] at h
    obtain ⟨rfl, rfl⟩ := h
    refine ⟨?_, ?_, ?_, ?_⟩ <;>
      simp [finishAnnot, objGet_objSet]

/-- When the raw schema carries an explicit `color` field, the resolved
`color` property equals that field's value, whatever the track
configuration and the global default hold. -/
theorem processRow_color {C : Type} (ideo : Ideo C) (chrModel : C)
    (chr : String) (i : ℕ) (keys : List String) (shape0 : JSVal)
    (ra : List JSVal) (obj : JSObj) (sh : JSVal)
    (h : processRow ideo chrModel chr i keys shape0 ra = some (obj, sh))
    (hk : "color" ∈ keys) :
    objGet obj "color" = objGet (buildFields keys ra) "color" := by
  have hHas := objHas_buildFields keys ra "color" hk
  simp only [processRow] at h
  split at h
  · split at h
    · exact Option.noConfusion h
    · simp only [Option.some.injEq, Prod.mk.injEq] at h
      obtain ⟨rfl, rfl⟩ := h
      simp [finishAnnot, objGet_objSet, objHas_objSet, hHas]
  · simp only [Option.some.injEq, Prod.mk.injEq] at h
    obtain ⟨rfl, rfl⟩ := h
    simp [finishAnnot, objGet_objSet, objHas_objSet, hHas]

/-- When the raw schema carries an explicit `shape` field, the resolved
`shape` property equals that field's value. -/
theorem processRow_shape {C : Type} (ideo : Ideo C) (chrModel : C)
    (chr : String) (i : ℕ) (keys : List String) (shape0 : JSVal)
    (ra : List JSVal) (obj : JSObj) (sh : JSVal)
    (h : processRow ideo chrModel chr i keys shape0 ra = some (obj, sh))
    (hk : "shape" ∈ keys) :
    objGet obj "shape" = objGet (buildFields keys ra) "shape" := by
  have hHas := objHas_buildFields keys ra "shape" hk
  simp only [processRow] at h
  split at h
  · split at h
    · exact Option.noConfusion h
    · simp only [Option.some.injEq, Prod.mk.injEq] at h
      obtain ⟨rfl, rfl⟩ := h
      simp [finishAnnot, objGet_objSet, objHas_objSet, hHas]
  · simp only [Option.some.injEq, Prod.mk.injEq] at h
    obtain ⟨rfl, rfl⟩ := h
    simp [finishAnnot, objGet_objSet, objHas_objSet, hHas]

/-- Every object produced by the inner loop comes from `processRow` on
some tuple of the group, at the same group name and outer counter. -/
theorem processRows_mem {C : Type} (ideo : Ideo C) (chrModel : C)
    (chr : String) (i : ℕ) (keys : List String) (shape0 : JSVal)
    (rows : List (List JSVal)) (objs : List JSObj) (shf : JSVal)
    (h : processRows ideo chrModel chr i keys shape0 rows = some (objs, shf))
    (obj : JSObj) (hm : obj ∈ objs) :
    ∃ sh1 ra sh2, ra ∈ rows ∧
      processRow ideo chrModel chr i keys sh1 ra = some (obj, sh2) := by
  induction rows generalizing shape0 objs shf with
  | nil =>
    simp only [processRows, Option.some.injEq, Prod.mk.injEq] at h
    obtain ⟨rfl, rfl⟩ := h
    cases hm
  | cons ra rest ih =>
    simp only [processRows] at h
    cases hpr : processRow ideo chrModel chr i keys shape0 ra with
    | none => rw [hpr] at h; exact Option.noConfusion h
    | some p =>
      obtain ⟨obj1, sh1⟩ := p
      rw [hpr] at h
      simp only at h
      cases hrest : processRows ideo chrModel chr i keys sh1 rest with
      | none => rw [hrest] at h; exact Option.noConfusion h
      | some q =>
        obtain ⟨objs', sh'⟩ := q
        rw [hrest] at h
        simp only [Option.some.injEq, Prod.mk.injEq] at h
        obtain ⟨rfl, rfl⟩ := h
        rcases List.mem_cons.mp hm with rfl | hmem
        · exact ⟨shape0, ra, sh1, List.mem_cons_self _ _, hpr⟩
        · obtain ⟨s1, ra', s2, hra, hrow⟩ := ih sh1 objs' sh' hrest hmem
          exact ⟨s1, ra', s2, List.mem_cons_of_mem _ hra, hrow⟩

/-- Without a configured track list the inner loop never fails. -/
theorem processRows_isSome {C : Type} (ideo : Ideo C) (chrModel : C)
    (chr : String) (i : ℕ) (keys : List String)
    (hTr : ideo.annotationTracks = none) (shape0 : JSVal)
    (rows : List (List JSVal)) :
    (processRows ideo chrModel chr i keys shape0 rows).isSome = true := by
  induction rows generalizing shape0 with
  | nil => simp [processRows]
  | cons ra rest ih =>
    cases hpr : processRow ideo chrModel chr i keys shape0 ra with
    | none => simp [processRow, hTr] at hpr
    | some p =>
      obtain ⟨obj, sh⟩ := p
      cases hrest : processRows ideo chrModel chr i keys sh rest with
      | none => have h2 := ih sh; rw [hrest] at h2; simp at h2
      | some q =>
        obtain ⟨objs, sh'⟩ := q
        simp [processRows, hpr, hrest]

/-- The outer loop prints exactly one warning, naming the chromosome and
its annotation count, for each unresolvable group, and the produced
groups are exactly the resolvable input groups in order. -/
theorem processGroups_warns {C : Type} (ideo : Ideo C) (keys : List String)
    (i : ℕ) (shape0 : JSVal) (gs : List RawGroup) (out : List ChrGroup)
    (warns : List String) (shf : JSVal)
    (h : processGroups ideo keys i shape0 gs = some (out, warns, shf)) :
    warns = (gs.filter fun g =>
        (ideo.chromosomes ideo.taxid g.chr).isNone).map
        (fun g => warnMsg g.chr g.annots.length) ∧
    out.map Group.chr = (gs.filter fun g =>
        (ideo.chromosomes ideo.taxid g.chr).isSome).map RawGroup.chr := by
  induction gs generalizing i shape0 out warns shf with
  | nil =>
    simp only [processGroups, Option.some.injEq, Prod.mk.injEq] at h
    obtain ⟨rfl, rfl, rfl⟩ := h
    simp
  | cons g rest ih =>
    simp only [processGroups] at h
    cases hc : ideo.chromosomes ideo.taxid g.chr with
    | none =>
      rw [hc] at h
      simp only at h
      cases hrec : processGroups ideo keys (i + 1) shape0 rest with
      | none => rw [hrec] at h; exact Option.noConfusion h
      | some q =>
        obtain ⟨out', warns', sh'⟩ := q
        rw [hrec] at h
        simp only [Option.some.injEq, Prod.mk.injEq] at h
        obtain ⟨rfl, rfl, rfl⟩ := h
        obtain ⟨hw, ho⟩ := ih (i + 1) shape0 out' warns' sh' hrec
        constructor
        · simp [List.filter_cons, hc, hw]
        · simp [List.filter_cons, hc, ho]
    | some chrModel =>
      rw [hc] at h
      simp only at h
      cases hrows : processRows ideo chrModel g.chr i keys shape0 g.annots with
      | none => rw [hrows] at h; exact Option.noConfusion h
      | some p =>
        obtain ⟨objs, sh⟩ := p
        rw [hrows] at h
        simp only at h
        cases hrec : processGroups ideo keys (i + 1) sh rest with
        | none => rw [hrec] at h; exact Option.noConfusion h
        | some q =>
          obtain ⟨out', warns', sh'⟩ := q
          rw [hrec] at h
          simp only [Option.some.injEq, Prod.mk.injEq] at h
          obtain ⟨rfl, rfl, rfl⟩ := h
          obtain ⟨hw, ho⟩ := ih (i + 1) sh out' warns' sh' hrec
          constructor
          · simp [List.filter_cons, hc, hw]
          · simp [List.filter_cons, hc, ho]

/-- Without a configured track list the outer loop never fails. -/
theorem processGroups_isSome {C : Type} (ideo : Ideo C) (keys : List String)
    (hTr : ideo.annotationTracks = none) (i : ℕ) (shape0 : JSVal)
    (gs : List RawGroup) :
    (processGroups ideo keys i shape0 gs).isSome = true := by
  induction gs generalizing i shape0 with
  | nil => simp [processGroups]
  | cons g rest ih =>
    cases hc : ideo.chromosomes ideo.taxid g.chr with
    | none =>
      cases hrec : processGroups ideo keys (i + 1) shape0 rest with
      | none => have h2 := ih (i + 1) shape0; rw [hrec] at h2; simp at h2
      | some q =>
        obtain ⟨out, warns, sh⟩ := q
        simp [processGroups, hc, hrec]
    | some chrModel =>
      cases hrows : processRows ideo chrModel g.chr i keys shape0 g.annots with
      | none =>
        have h2 := processRows_isSome ideo chrModel g.chr i keys hTr shape0 g.annots
        rw [hrows] at h2; simp at h2
      | some p =>
        obtain ⟨objs, sh⟩ := p
        cases hrec : processGroups ideo keys (i + 1) sh rest with
        | none => have h2 := ih (i + 1) sh; rw [hrec] at h2; simp at h2
        | some q =>
          obtain ⟨out, warns, sh'⟩ := q
          simp [processGroups, hc, hrows, hrec]

/-- Every group the outer loop emits descends from a raw group: its name
is that group's `chr`, and every contained object carries that group's
raw position (offset by the starting counter) as `chrIndex`, and arises
from `processRow` under that group's resolved chromosome model. -/
theorem processGroups_from {C : Type} (ideo : Ideo C) (keys : List String)
    (i0 : ℕ) (shape0 : JSVal) (gs : List RawGroup) (out : List ChrGroup)
    (warns : List String) (shf : JSVal)
    (h : processGroups ideo keys i0 shape0 gs = some (out, warns, shf))
    (g : ChrGroup) (hg : g ∈ out) :
    ∃ t, ∃ ht : t < gs.length, ∃ chrModel,
      (gs.get ⟨t, ht⟩).chr = g.chr ∧
      ideo.chromosomes ideo.taxid g.chr = some chrModel ∧
      ∀ obj ∈ g.annots, ∃ sh1 ra sh2, ra ∈ (gs.get ⟨t, ht⟩).annots ∧
        processRow ideo chrModel g.chr (i0 + t) keys sh1 ra = some (obj, sh2) := by
  induction gs generalizing i0 shape0 out warns shf with
  | nil =>
    simp only [processGroups, Option.some.injEq, Prod.mk.injEq] at h
    obtain ⟨rfl, rfl, rfl⟩ := h
    cases hg
  | cons g0 rest ih =>
    simp only [processGroups] at h
    cases hc : ideo.chromosomes ideo.taxid g0.chr with
    | none =>
      rw [hc] at h
      simp only at h
      cases hrec : processGroups ideo keys (i0 + 1) shape0 rest with
      | none => rw [hrec] at h; exact Option.noConfusion h
      | some q =>
        obtain ⟨out', warns', sh'⟩ := q
        rw [hrec] at h
        simp only [Option.some.injEq, Prod.mk.injEq] at h
        obtain ⟨rfl, rfl, rfl⟩ := h
        obtain ⟨t, ht, cm, hchr, hcm, hrow⟩ := ih (i0 + 1) shape0 out' warns' sh' hrec hg
        refine ⟨t + 1, Nat.succ_lt_succ ht, cm, hchr, hcm, ?_⟩
        intro obj hobj
        obtain ⟨s1, ra, s2, hra, hr⟩ := hrow obj hobj
        exact ⟨s1, ra, s2, hra, by rw [show i0 + (t + 1) = i0 + 1 + t by omega]; exact hr⟩
    | some chrModel =>
      rw [hc] at h
      simp only at h
      cases hrows : processRows ideo chrModel g0.chr i0 keys shape0 g0.annots with
      | none => rw [hrows] at h; exact Option.noConfusion h
      | some p =>
        obtain ⟨objs, sh⟩ := p
        rw [hrows] at h
        simp only at h
        cases hrec : processGroups ideo keys (i0 + 1) sh rest with
        | none => rw [hrec] at h; exact Option.noConfusion h
        | some q =>
          obtain ⟨out', warns', sh'⟩ := q
          rw [hrec] at h
          simp only [Option.some.injEq, Prod.mk.injEq] at h
          obtain ⟨rfl, rfl, rfl⟩ := h
          rcases List.mem_cons.mp hg with rfl | hmem
          · refine ⟨0, Nat.succ_pos _, chrModel, rfl, hc, ?_⟩
            intro obj hobj
            obtain ⟨s1, ra, s2, hra, hr⟩ :=
              processRows_mem ideo chrModel g0.chr i0 keys shape0
                g0.annots objs sh hrows obj hobj
            exact ⟨s1, ra, s2, hra, by simpa using hr⟩
          · obtain ⟨t, ht, cm, hchr, hcm, hrow⟩ := ih (i0 + 1) sh out' warns' sh' hrec hmem
            refine ⟨t + 1, Nat.succ_lt_succ ht, cm, hchr, hcm, ?_⟩
            intro obj hobj
            obtain ⟨s1, ra, s2, hra, hr⟩ := hrow obj hobj
            exact ⟨s1, ra, s2, hra, by rw [show i0 + (t + 1) = i0 + 1 + t by omega]; exact hr⟩

/-- A found index is in range and points at the sought string. -/
theorem jsIndexOf_eq_some (l : List String) (x : String) (k : ℕ)
    (h : jsIndexOf l x = some k) :
    ∃ hk : k < l.length, l.get ⟨k, hk⟩ = x := by
  induction l generalizing k with
  | nil => exact Option.noConfusion h
  | cons y ys ih =>
    simp only [jsIndexOf] at h
    split at h
    · obtain rfl : (0 : ℕ) = k := Option.some.inj h
      next hy => exact ⟨Nat.succ_pos _, hy⟩
    · rw [Option.map_eq_some'] at h
      obtain ⟨k', hk', rfl⟩ := h
      obtain ⟨hlt, hget⟩ := ih k' hk'
      exact ⟨Nat.succ_lt_succ hlt, hget⟩

/-- On a duplicate-free list, looking up the element at position `k`
finds exactly `k`. -/
theorem jsIndexOf_getElem_of_nodup (l : List String) (hn : l.Nodup) (k : ℕ)
    (hk : k < l.length) : jsIndexOf l (l.get ⟨k, hk⟩) = some k := by
  induction l generalizing k with
  | nil => cases hk
  | cons y ys ih =>
    obtain ⟨hy, hys⟩ := List.nodup_cons.mp hn
    cases k with
    | zero => simp [jsIndexOf]
    | succ k =>
      have hk' : k < ys.length := Nat.lt_of_succ_lt_succ hk
      have hne : y ≠ ys.get ⟨k, hk'⟩ := by
        intro hcontra
        exact hy (hcontra ▸ List.get_mem ys k hk')
      simp only [List.get_cons_succ, jsIndexOf]
      rw [if_neg hne, ih hys k hk']
      rfl

/-- `indexOf` misses exactly the absent strings. -/
theorem jsIndexOf_eq_none (l : List String) (x : String) :
    jsIndexOf l x = none ↔ x ∉ l := by
  induction l with
  | nil => simp [jsIndexOf]
  | cons y ys ih =>
    by_cases hy : y = x
    · simp [jsIndexOf, hy]
    · simp [jsIndexOf, hy, ih, Ne.symm hy]

/-- Unfolding of the replacement loop on a cons cell. -/
theorem fillAux_cons {α : Type} (chrs : List String) (acc : List (Group α))
    (g : Group α) (l : List (Group α)) :
    fillAux chrs acc (g :: l) =
      fillAux chrs
        (match jsIndexOf chrs g.chr with
         | some k => acc.set k g
         | none => acc) l := rfl

/-- The replacement loop preserves the list length. -/
theorem fillAux_length {α : Type} (chrs : List String)
    (l : List (Group α)) : ∀ acc : List (Group α),
    (fillAux chrs acc l).length = acc.length := by
  induction l with
  | nil => intro acc; rfl
  | cons g rest ih =>
    intro acc
    rw [fillAux_cons, ih]
    cases jsIndexOf chrs g.chr <;> simp

/-- Pointwise description of the replacement loop: position `k` holds
the latest processed entry whose `chr` resolves to index `k`, or the
starting entry when no processed entry does. -/
theorem fillAux_getElem? {α : Type} (chrs : List String)
    (l : List (Group α)) : ∀ (acc : List (Group α)) (k : ℕ)
    (hk : k < acc.length),
    (fillAux chrs acc l)[k]? =
      some ((l.reverse.find? fun g =>
        jsIndexOf chrs g.chr == some k).getD acc[k]) := by
  induction l with
  | nil =>
    intro acc k hk
    simp only [fillAux, List.foldl_nil, List.reverse_nil, List.find?_nil,
      Option.getD_none]
    exact List.getElem?_eq_getElem hk
  | cons g rest ih =>
    intro acc k hk
    rw [fillAux_cons]
    cases hj : jsIndexOf chrs g.chr with
    | none =>
      have hred : (match (none : Option ℕ) with
          | some j => acc.set j g
          | none => acc) = acc := rfl
      rw [hred, ih acc k hk, List.reverse_cons, List.find?_append]
      have hpg : (jsIndexOf chrs g.chr == some k) = false := by rw [hj]; rfl
      cases h1 : rest.reverse.find? (fun g2 => jsIndexOf chrs g2.chr == some k) with
      | some x => simp [h1, Option.or]
      | none => simp [h1, hpg, Option.or]
    | some j =>
      have hred : (match (some j : Option ℕ) with
          | some j2 => acc.set j2 g
          | none => acc) = acc.set j g := rfl
      have hklen : k < (acc.set j g).length := by simpa
      rw [hred, ih (acc.set j g) k hklen, List.reverse_cons, List.find?_append]
      cases h1 : rest.reverse.find? (fun g2 => jsIndexOf chrs g2.chr == some k) with
      | some x => simp [h1, Option.or]
      | none =>
        by_cases hjk : j = k
        · subst hjk
          have hpg : (jsIndexOf chrs g.chr == some j) = true := by
            rw [hj]; simp
          simp [h1, hpg, Option.or, List.getElem_set_self]
        · have hpg : (jsIndexOf chrs g.chr == some k) = false := by
            rw [hj]; simp [hjk]
          simp [h1, hpg, Option.or, List.getElem_set_ne hjk]

/-- `fillAnnots` always returns as many entries as the diagram has
chromosomes. -/
theorem fillAnnots_length {α : Type} (ca : List ChrEntry)
    (l : List (Group α)) : (fillAnnots ca l).length = ca.length := by
  rw [fillAnnots, fillAux_length]
  simp

/-- Pointwise description of `fillAnnots`: canonical position `k` holds
the latest fragment entry whose `chr` has canonical index `k`, else the
empty placeholder named after canonical chromosome `k`. -/
theorem fillAnnots_getElem? {α : Type} (ca : List ChrEntry)
    (l : List (Group α)) (k : ℕ) (hk : k < ca.length) :
    (fillAnnots ca l)[k]? =
      some ((l.reverse.find? fun g =>
        jsIndexOf (ca.map ChrEntry.name) g.chr == some k).getD
        ⟨(ca.get ⟨k, hk⟩).name, []⟩) := by
  have hacc : k < (ca.map fun c => (⟨c.name, []⟩ : Group α)).length := by simpa
  rw [fillAnnots, fillAux_getElem? _ _ _ k hacc]
  have hdef : (ca.map fun c => (⟨c.name, []⟩ : Group α))[k] =
      ⟨(ca.get ⟨k, hk⟩).name, []⟩ := by
    simp [List.getElem_map]
  rw [hdef]

/-- C5: for every input fragment, the list returned by `fillAnnots` has
exactly one entry per canonical chromosome, in canonical position: the
entry at position `k` is either the empty placeholder for canonical
chromosome `k` or a fragment entry whose `chr` equals that canonical
name (so fragment entries with unknown `chr` names are dropped), and a
canonical chromosome matched by no fragment entry keeps its empty
placeholder. -/
theorem c5_fill_length_and_placeholders {α : Type} (ca : List ChrEntry)
    (l : List (Group α)) :
    (fillAnnots ca l).length = ca.length ∧
    ∀ k (hk : k < ca.length),
      ((fillAnnots ca l)[k]? = some ⟨(ca.get ⟨k, hk⟩).name, []⟩ ∨
       ∃ g, (fillAnnots ca l)[k]? = some g ∧ g ∈ l ∧
         g.chr = (ca.get ⟨k, hk⟩).name) ∧
      ((ca.get ⟨k, hk⟩).name ∉ l.map Group.chr →
        (fillAnnots ca l)[k]? = some ⟨(ca.get ⟨k, hk⟩).name, []⟩) := by
  refine ⟨fillAnnots_length ca l, ?_⟩
  intro k hk
  rw [fillAnnots_getElem? ca l k hk]
  cases hfind : l.reverse.find?
      (fun g => jsIndexOf (ca.map ChrEntry.name) g.chr == some k) with
  | none => exact ⟨Or.inl rfl, fun _ => rfl⟩
  | some g =>
    have hpb := List.find?_some hfind
    simp only [] at hpb
    have hp : jsIndexOf (ca.map ChrEntry.name) g.chr = some k := eq_of_beq hpb
    have hmem : g ∈ l := List.mem_reverse.mp (List.mem_of_find?_eq_some hfind)
    obtain ⟨hklt, hget⟩ := jsIndexOf_eq_some _ _ _ hp
    have hname : g.chr = (ca.get ⟨k, hk⟩).name := by
      rw [← hget]
      simp [List.get_eq_getElem, List.getElem_map]
    refine ⟨Or.inr ⟨g, rfl, hmem, hname⟩, fun habs => ?_⟩
    exact absurd (hname ▸ List.mem_map_of_mem Group.chr hmem) habs

/-- C6: reconciling an already-reconciled structure (one entry per
canonical chromosome, in canonical order, with matching names) against
the same canonical order returns the structure unchanged. -/
theorem c6_fill_idempotent {α : Type} (ca : List ChrEntry)
    (l : List (Group α))
    (hn : (ca.map ChrEntry.name).Nodup)
    (hlen : l.length = ca.length)
    (hchr : ∀ k (hk : k < l.length) (hk2 : k < ca.length),
      (l[k]).chr = (ca[k]).name) :
    fillAnnots ca l = l := by
  apply List.ext_getElem
  · rw [fillAnnots_length, hlen]
  intro n h1 h2
  have hca : n < ca.length := hlen ▸ h2
  have hnames : n < (ca.map ChrEntry.name).length := by simpa
  have hq := fillAnnots_getElem? ca l n hca
  have hfill : (fillAnnots ca l)[n] =
      ((l.reverse.find? fun g =>
        jsIndexOf (ca.map ChrEntry.name) g.chr == some n).getD
        ⟨(ca.get ⟨n, hca⟩).name, []⟩) := by
    have h3 := List.getElem?_eq_getElem h1
    rw [hq] at h3
    exact Option.some.inj h3.symm
  rw [hfill]
  have hidx : jsIndexOf (ca.map ChrEntry.name) ((l[n]).chr) = some n := by
    have h7 := jsIndexOf_getElem_of_nodup (ca.map ChrEntry.name) hn n hnames
    simp only [List.get_eq_getElem, List.getElem_map] at h7
    rw [hchr n h2 hca]
    exact h7
  have hpn : (fun g => jsIndexOf (ca.map ChrEntry.name) g.chr == some n)
      (l[n]) = true := by
    simp [hidx]
  cases hfind : l.reverse.find?
      (fun g => jsIndexOf (ca.map ChrEntry.name) g.chr == some n) with
  | none =>
    rw [List.find?_eq_none] at hfind
    exact absurd hpn (by
      simpa using hfind (l[n])
        (List.mem_reverse.mpr (List.getElem_mem h2)))
  | some x =>
    have hpb := List.find?_some hfind
    simp only [] at hpb
    have hp : jsIndexOf (ca.map ChrEntry.name) x.chr = some n := eq_of_beq hpb
    have hx : x ∈ l := List.mem_reverse.mp (List.mem_of_find?_eq_some hfind)
    obtain ⟨j, hj, hxj⟩ := List.mem_iff_getElem.mp hx
    have hj2 : j < ca.length := hlen ▸ hj
    obtain ⟨hnlt, hgetn⟩ := jsIndexOf_eq_some _ _ _ hp
    have hjn : j = n := by
      have hj3 : j < (ca.map ChrEntry.name).length := by simpa using hj2
      have e1 : (ca.map ChrEntry.name)[j] =
          (ca.map ChrEntry.name)[n] := by
        rw [List.getElem_map, List.getElem_map]
        rw [← hchr j hj hj2, hxj]
        rw [← hgetn]
        simp [List.get_eq_getElem, List.getElem_map]
      exact (hn.getElem_inj_iff.mp e1)
    subst hjn
    simp only [Option.getD_some]
    exact hxj.symm

/-- A successful `processAnnotData` run is a successful outer loop run. -/
theorem processAnnotData_eq {C : Type} (ideo : Ideo C) (raw : RawAnnots)
    (out : List ChrGroup) (warns : List String)
    (h : processAnnotData ideo raw = some (out, warns)) :
    ∃ shf, processGroups ideo raw.keys 0 .undef raw.annots =
      some (out, warns, shf) := by
  simp only [processAnnotData] at h
  cases hpg : processGroups ideo raw.keys 0 .undef raw.annots with
  | none => rw [hpg] at h; exact Option.noConfusion h
  | some q =>
    obtain ⟨out', warns', shf⟩ := q
    rw [hpg] at h
    simp only [Option.some.injEq, Prod.mk.injEq] at h
    obtain ⟨rfl, rfl⟩ := h
    exact ⟨shf, rfl⟩

/-- C7: a raw group whose `chr` does not resolve in the chromosome-model
table contributes exactly one warning — naming the chromosome and its
annotation count — and no output group, while the resolvable groups
before and after it are all processed; and (absent a track config, whose
faulty indexing is the one exception that can throw) the function throws
no exception. -/
theorem c7_unknown_chromosome_warning {C : Type} (ideo : Ideo C)
    (raw : RawAnnots) :
    (∀ out warns, processAnnotData ideo raw = some (out, warns) →
      warns = (raw.annots.filter fun g =>
          (ideo.chromosomes ideo.taxid g.chr).isNone).map
          (fun g => warnMsg g.chr g.annots.length) ∧
      out.map Group.chr = (raw.annots.filter fun g =>
          (ideo.chromosomes ideo.taxid g.chr).isSome).map RawGroup.chr) ∧
    (ideo.annotationTracks = none →
      (processAnnotData ideo raw).isSome = true) := by
  constructor
  · intro out warns h
    obtain ⟨shf, hpg⟩ := processAnnotData_eq ideo raw out warns h
    exact processGroups_warns ideo raw.keys 0 .undef raw.annots out warns shf hpg
  · intro hTr
    simp only [processAnnotData]
    cases hpg : processGroups ideo raw.keys 0 .undef raw.annots with
    | none =>
      have h2 := processGroups_isSome ideo raw.keys hTr 0 .undef raw.annots
      rw [hpg] at h2
      simp at h2
    | some q =>
      obtain ⟨out, warns, shf⟩ := q
      simp

/-- C1 (amended): every annotation object built by `processAnnotData`
stores `stop` as the JS sum of its `start` and `length` fields — so
`stop = start + length` whenever those are numbers — and whenever its
stored pixel bounds are numbers at least one pixel apart, its stored
`px` is an integer lying between them.  (When the bounds are closer than
one pixel the rounded midpoint can escape the interval; see the
counterexample.) -/
theorem c1_stop_px_invariants {C : Type} (ideo : Ideo C) (raw : RawAnnots)
    (out : List ChrGroup) (warns : List String) (g : ChrGroup) (obj : JSObj)
    (h : processAnnotData ideo raw = some (out, warns)) (hg : g ∈ out)
    (hobj : obj ∈ g.annots) :
    (∀ s l : ℚ, objGet obj "start" = JSVal.num s →
      objGet obj "length" = JSVal.num l →
      objGet obj "stop" = JSVal.num (s + l)) ∧
    (∀ p1 p2 : ℚ, objGet obj "startPx" = JSVal.num p1 →
      objGet obj "stopPx" = JSVal.num p2 → p1 + 1 ≤ p2 →
      ∃ z : ℤ, objGet obj "px" = JSVal.num z ∧
        p1 ≤ (z : ℚ) ∧ (z : ℚ) ≤ p2) := by
  obtain ⟨shf, hpg⟩ := processAnnotData_eq ideo raw out warns h
  obtain ⟨t, ht, cm, hchr, hcm, hrow⟩ :=
    processGroups_from ideo raw.keys 0 .undef raw.annots out warns shf hpg g hg
  obtain ⟨s1, ra, s2, hra, hr⟩ := hrow obj hobj
  obtain ⟨hstop, hpx, hchrIdx, hchrName⟩ :=
    processRow_get _ _ _ _ _ _ _ _ _ hr
  constructor
  · intro s l hs hl
    rw [hstop, hs, hl]
    rfl
  · intro p1 p2 hp1 hp2 hgap
    rw [hp1, hp2] at hpx
    exact ⟨round ((p1 + p2) / 2), by rw [hpx]; rfl,
      (round_mid_bounds p1 p2 hgap).1, (round_mid_bounds p1 p2 hgap).2⟩

/-- The instance of the C1 counterexample: identity-shaped geometry
scaled by one tenth. -/
def ideoCE : Ideo Unit :=
  { taxid := "9606", chromosomes := fun _ _ => some (),
    convertBpToPx := fun _ q => q / 10, annotationsColor := .str "#F00",
    annotationTracks := none, chromosomesArray := [⟨"1"⟩] }

/-- The raw input of the C1 counterexample. -/
def rawCE : RawAnnots :=
  { keys := ["name", "start", "length"],
    annots := [⟨"1", [[.str "g", .num 6, .num 2]]⟩] }

/-- The annotation object the C1 counterexample produces. -/
def annotCE : JSObj :=
  [("name", .str "g"), ("start", .num 6), ("length", .num 2),
   ("stop", .num 8), ("trackIndex", .num 0), ("chr", .str "1"),
   ("chrIndex", .num 0), ("px", .num 1), ("startPx", .num (3/5)),
   ("stopPx", .num (4/5)), ("color", .str "#F00"), ("shape", .undef)]

/-- C1 counterexample: with the coordinate mapper `q ↦ q / 10` (a scale
realistic for genome-length chromosomes), the annotation with
`start = 6`, `length = 2` gets `startPx = 0.6`, `stopPx = 0.8` and
`px = round(0.7) = 1`, so `px ≤ stopPx` fails: the claimed
`startPx ≤ px ≤ stopPx` does not hold of `processAnnotData`'s output. -/
theorem c1_px_counterexample :
    processAnnotData ideoCE rawCE = some ([⟨"1", [annotCE]⟩], []) ∧
    objGet annotCE "startPx" = JSVal.num (3/5) ∧
    objGet annotCE "stopPx" = JSVal.num (4/5) ∧
    objGet annotCE "px" = JSVal.num 1 ∧
    ¬ ((1 : ℚ) ≤ 4/5) := by
  refine ⟨?_, ?_, ?_, ?_, by norm_num⟩
  · simp [processAnnotData, processGroups, processRows, processRow,
      buildFields, objSet, objGet, objHas, jsAdd, jsConvert, jsDiv2, jsRound,
      finishAnnot, ideoCE, rawCE, annotCE]
    norm_num [round_eq]
  · simp [annotCE, objGet]
  · simp [annotCE, objGet]
  · simp [annotCE, objGet]

/-- C3 (amended): `chrIndex` is the 0-based position of the annotation's
group in the raw input's group enumeration, and `fillAnnots` re-keys
entries without touching it; so when the raw input lists its groups in
exactly the diagram's canonical order (distinct canonical names), every
annotation in the reconciled structure carries its canonical position as
`chrIndex`.  (For raw inputs ordered differently the canonical-position
reading fails; see the counterexample.) -/
theorem c3_chrIndex_raw_order {C : Type} (ideo : Ideo C) (raw : RawAnnots)
    (out : List ChrGroup) (warns : List String)
    (h : processAnnotData ideo raw = some (out, warns))
    (hn : (ideo.chromosomesArray.map ChrEntry.name).Nodup)
    (ha : raw.annots.map RawGroup.chr = ideo.chromosomesArray.map ChrEntry.name)
    (k : ℕ) (hk : k < (fillAnnots ideo.chromosomesArray out).length)
    (obj : JSObj)
    (hobj : obj ∈ ((fillAnnots ideo.chromosomesArray out)[k]).annots) :
    objGet obj "chrIndex" = JSVal.num k := by
  have hca : k < ideo.chromosomesArray.length := by
    rw [fillAnnots_length] at hk
    exact hk
  have hq := fillAnnots_getElem? ideo.chromosomesArray out k hca
  have hfill : (fillAnnots ideo.chromosomesArray out)[k] =
      ((out.reverse.find? fun g =>
        jsIndexOf (ideo.chromosomesArray.map ChrEntry.name) g.chr ==
          some k).getD ⟨(ideo.chromosomesArray.get ⟨k, hca⟩).name, []⟩) := by
    have h3 := List.getElem?_eq_getElem hk
    rw [hq] at h3
    exact Option.some.inj h3.symm
  cases hfind : out.reverse.find? (fun g =>
      jsIndexOf (ideo.chromosomesArray.map ChrEntry.name) g.chr == some k) with
  | none =>
    rw [hfind] at hfill
    rw [hfill] at hobj
    simp at hobj
  | some g =>
    rw [hfind] at hfill
    simp only [Option.getD_some] at hfill
    rw [hfill] at hobj
    have hg : g ∈ out := List.mem_reverse.mp (List.mem_of_find?_eq_some hfind)
    have hpb := List.find?_some hfind
    simp only [] at hpb
    have hpk : jsIndexOf (ideo.chromosomesArray.map ChrEntry.name) g.chr =
        some k := eq_of_beq hpb
    obtain ⟨shf, hpg⟩ := processAnnotData_eq ideo raw out warns h
    obtain ⟨t, ht, cm, hchr, hcm, hrow⟩ :=
      processGroups_from ideo raw.keys 0 .undef raw.annots out warns shf hpg g hg
    have htn : t < (ideo.chromosomesArray.map ChrEntry.name).length := by
      rw [← ha]
      simpa using ht
    have hgchr : g.chr =
        (ideo.chromosomesArray.map ChrEntry.name).get ⟨t, htn⟩ := by
      have ht2 : t < (raw.annots.map RawGroup.chr).length := by simpa using ht
      have h4 : (raw.annots.map RawGroup.chr)[t] =
          (ideo.chromosomesArray.map ChrEntry.name)[t] := by
        simp [ha]
      rw [← hchr]
      simp only [List.get_eq_getElem]
      rw [← h4, List.getElem_map]
    have hidx_t : jsIndexOf (ideo.chromosomesArray.map ChrEntry.name)
        ((ideo.chromosomesArray.map ChrEntry.name).get ⟨t, htn⟩) = some t :=
      jsIndexOf_getElem_of_nodup _ hn t htn
    rw [hgchr, hidx_t] at hpk
    obtain rfl : t = k := Option.some.inj hpk
    obtain ⟨s1, ra, s2, hra, hr⟩ := hrow obj hobj
    obtain ⟨_, _, hchrIdx, _⟩ := processRow_get _ _ _ _ _ _ _ _ _ hr
    rw [hchrIdx]
    norm_num

/-- The instance of the C3 counterexample: canonical order `["1", "2"]`,
identity coordinate mapper. -/
def ideoX : Ideo Unit :=
  { taxid := "9606", chromosomes := fun _ _ => some (),
    convertBpToPx := fun _ q => q, annotationsColor := .str "#F00",
    annotationTracks := none, chromosomesArray := [⟨"1"⟩, ⟨"2"⟩] }

/-- The raw input of the C3 counterexample: groups in the order
`["2", "1"]`, the reverse of the canonical order. -/
def rawX : RawAnnots :=
  { keys := ["name", "start", "length"],
    annots := [⟨"2", [[.str "a", .num 10, .num 2]]⟩,
               ⟨"1", [[.str "b", .num 20, .num 2]]⟩] }

/-- The annotation of raw group 0 (chromosome "2") of the C3
counterexample. -/
def annotX2 : JSObj :=
  [("name", .str "a"), ("start", .num 10), ("length", .num 2),
   ("stop", .num 12), ("trackIndex", .num 0), ("chr", .str "2"),
   ("chrIndex", .num 0), ("px", .num 11), ("startPx", .num 10),
   ("stopPx", .num 12), ("color", .str "#F00"), ("shape", .undef)]

/-- The annotation of raw group 1 (chromosome "1") of the C3
counterexample. -/
def annotX1 : JSObj :=
  [("name", .str "b"), ("start", .num 20), ("length", .num 2),
   ("stop", .num 22), ("trackIndex", .num 0), ("chr", .str "1"),
   ("chrIndex", .num 1), ("px", .num 21), ("startPx", .num 20),
   ("stopPx", .num 22), ("color", .str "#F00"), ("shape", .undef)]

/-- C3 counterexample: with raw groups in the order `["2", "1"]` against
canonical order `["1", "2"]`, the annotation that `fillAnnots` places at
canonical position 1 (chromosome "2") carries `chrIndex = 0` — its raw
position — not its canonical position 1. -/
theorem c3_chrIndex_counterexample :
    processAnnotData ideoX rawX =
      some ([⟨"2", [annotX2]⟩, ⟨"1", [annotX1]⟩], []) ∧
    fillAnnots ideoX.chromosomesArray
        [⟨"2", [annotX2]⟩, ⟨"1", [annotX1]⟩] =
      [⟨"1", [annotX1]⟩, ⟨"2", [annotX2]⟩] ∧
    objGet annotX2 "chrIndex" = JSVal.num 0 ∧
    JSVal.num 0 ≠ JSVal.num 1 := by
  refine ⟨?_, ?_, ?_, by norm_num⟩
  · simp [processAnnotData, processGroups, processRows, processRow,
      buildFields, objSet, objGet, objHas, jsAdd, jsConvert, jsDiv2, jsRound,
      finishAnnot, ideoX, rawX, annotX1, annotX2]
    norm_num [round_eq]
  · simp [fillAnnots, fillAux, jsIndexOf, ideoX]
  · simp [annotX2, objGet]

/-- C4: when the raw schema carries an explicit `color` (resp. `shape`)
field, the resolved property equals that field's value from the raw
tuple, overriding both the configured track entry and the global default
(whatever they are set to). -/
theorem c4_explicit_color_shape_wins {C : Type} (ideo : Ideo C)
    (chrModel : C) (chr : String) (i : ℕ) (keys : List String)
    (shape0 : JSVal) (ra : List JSVal) (obj : JSObj) (sh : JSVal)
    (h : processRow ideo chrModel chr i keys shape0 ra = some (obj, sh)) :
    ("color" ∈ keys →
      objGet obj "color" = objGet (buildFields keys ra) "color") ∧
    ("shape" ∈ keys →
      objGet obj "shape" = objGet (buildFields keys ra) "shape") :=
  ⟨fun hk => processRow_color ideo chrModel chr i keys shape0 ra obj sh h hk,
   fun hk => processRow_shape ideo chrModel chr i keys shape0 ra obj sh h hk⟩

/-- The instance of the C4 witness: a track list and a global default
color both different from the explicit per-annotation values. -/
def ideoC4 : Ideo Unit :=
  { taxid := "9606", chromosomes := fun _ _ => some (),
    convertBpToPx := fun _ q => q, annotationsColor := .str "#00F",
    annotationTracks := some [⟨.str "#0F0", .str "circle"⟩],
    chromosomesArray := [⟨"1"⟩] }

/-- The schema of the C4 witness, carrying explicit `color` and `shape`
fields. -/
def keysC4 : List String :=
  ["name", "start", "length", "trackIndex", "color", "shape"]

/-- The raw tuple of the C4 witness. -/
def raC4 : List JSVal :=
  [.str "g", .num 5, .num 2, .num 0, .str "red", .str "square"]

/-- The annotation object the C4 witness produces. -/
def objC4 : JSObj :=
  [("name", .str "g"), ("start", .num 5), ("length", .num 2),
   ("trackIndex", .num 0), ("color", .str "red"), ("shape", .str "square"),
   ("stop", .num 7), ("trackIndex", .num 0), ("chr", .str "1"),
   ("chrIndex", .num 0), ("px", .num 6), ("startPx", .num 5),
   ("stopPx", .num 7), ("color", .str "red"), ("shape", .str "square")]

/-- C4 witness: at the concrete input with explicit color `red`, track
color `#0F0` and global default `#00F`, the resolved color is `red` (and
likewise the explicit shape `square` beats the track's `circle`). -/
theorem c4_witness :
    objGet objC4 "color" = JSVal.str "red" ∧
    objGet objC4 "shape" = JSVal.str "square" ∧
    ideoC4.annotationTracks = some [⟨.str "#0F0", .str "circle"⟩] ∧
    ideoC4.annotationsColor = .str "#00F" := by
  have heval : processRow ideoC4 () "1" 0 keysC4 .undef raC4 =
      some (objC4, .str "square") := by
    simp [processRow, buildFields, objSet, objGet, objHas, jsAdd, jsConvert,
      jsDiv2, jsRound, finishAnnot, jsIndex, ideoC4, keysC4, raC4, objC4]
    norm_num [round_eq]
  have h := c4_explicit_color_shape_wins ideoC4 () "1" 0 keysC4 .undef raC4
    objC4 (.str "square") heval
  refine ⟨?_, ?_, rfl, rfl⟩
  · rw [h.1 (by simp [keysC4])]
    simp [buildFields, keysC4, raC4, objGet]
  · rw [h.2 (by simp [keysC4])]
    simp [buildFields, keysC4, raC4, objGet]

/-- The config of the C8 scenario: a remote annotations path, no
configured color. -/
def cfgC8 : Config :=
  { annotationsPath := .str "annots.json", localAnnotationsPath := .undef,
    annotations := .undef, annotationHeight := .undef, chrHeight := .num 500,
    annotationTracks := none, numAnnotTracks := .undef,
    annotTracksHeight := .undef, barWidth := .undef,
    annotationsColor := .undef, showAnnotTooltip := .undef }

/-- The instance of the C8 scenario: chromosome "1" resolvable, identity
coordinate mapper, no track config, default-initialized color. -/
def ideoC8 : Ideo Unit :=
  { taxid := "9606", chromosomes := fun _ _ => some (),
    convertBpToPx := fun _ q => q,
    annotationsColor := (initAnnotSettings false cfgC8).annotationsColor,
    annotationTracks := none, chromosomesArray := [⟨"1"⟩] }

/-- The raw input of the C8 scenario. -/
def rawC8 : RawAnnots :=
  { keys := ["name", "start", "length"],
    annots := [⟨"1", [[.str "BRCA1", .num 1000, .num 200]]⟩] }

/-- The single annotation object the C8 scenario produces. -/
def annotC8 : JSObj :=
  [("name", .str "BRCA1"), ("start", .num 1000), ("length", .num 200),
   ("stop", .num 1200), ("trackIndex", .num 0), ("chr", .str "1"),
   ("chrIndex", .num 0), ("px", .num 1100), ("startPx", .num 1000),
   ("stopPx", .num 1200), ("color", .str "#F00"), ("shape", .undef)]

/-- C8: the concrete scenario — `{keys:["name","start","length"],
annots:[{chr:"1", annots:[["BRCA1",1000,200]]}]}` with chromosome "1"
resolvable, no track config, the default-initialized annotations color
and the identity Coordinate Mapper — yields exactly one annotation with
`start=1000`, `stop=1200`, `startPx=1000`, `stopPx=1200`, `px=1100`,
`trackIndex=0`, `color="#F00"`. -/
theorem c8_scenario :
    (initAnnotSettings false cfgC8).annotationsColor = JSVal.str "#F00" ∧
    processAnnotData ideoC8 rawC8 = some ([⟨"1", [annotC8]⟩], []) ∧
    objGet annotC8 "start" = JSVal.num 1000 ∧
    objGet annotC8 "stop" = JSVal.num 1200 ∧
    objGet annotC8 "startPx" = JSVal.num 1000 ∧
    objGet annotC8 "stopPx" = JSVal.num 1200 ∧
    objGet annotC8 "px" = JSVal.num 1100 ∧
    objGet annotC8 "trackIndex" = JSVal.num 0 ∧
    objGet annotC8 "color" = JSVal.str "#F00" := by
  refine ⟨?_, ?_, ?_, ?_, ?_, ?_, ?_, ?_, ?_⟩
  · simp [initAnnotSettings, annotLayerEnabled, jsTruthy, cfgC8]
  · simp [processAnnotData, processGroups, processRows, processRow,
      buildFields, objSet, objGet, objHas, jsAdd, jsConvert, jsDiv2, jsRound,
      finishAnnot, ideoC8, rawC8, annotC8, initAnnotSettings,
      annotLayerEnabled, jsTruthy, cfgC8]
    norm_num [round_eq]
  all_goals simp [annotC8, objGet]

set_option maxHeartbeats 1600000 in
set_option maxRecDepth 8192 in
/-- C9: with the annotation layer enabled, `initAnnotSettings` derives
`annotationHeight` as the rounded hundredth of the chromosome height
when that setting is not already (truthily) configured, sets
`numAnnotTracks` to the configured track list's length (else 1), sets
`annotTracksHeight` to their product, and defaults `barWidth` to 3 when
unset; with the layer disabled it forces `annotTracksHeight` to 0. -/
theorem c9_init_annot_settings (hasAnnots : Bool) (cfg : Config) :
    (annotLayerEnabled hasAnnots cfg = true →
      (jsTruthy cfg.annotationHeight = false →
        (initAnnotSettings hasAnnots cfg).annotationHeight =
          jsRound (jsDiv cfg.chrHeight 100)) ∧
      (initAnnotSettings hasAnnots cfg).numAnnotTracks =
        (match cfg.annotationTracks with
         | some ts => JSVal.num ts.length
         | none => JSVal.num 1) ∧
      (initAnnotSettings hasAnnots cfg).annotTracksHeight =
        jsMul (initAnnotSettings hasAnnots cfg).annotationHeight
          (initAnnotSettings hasAnnots cfg).numAnnotTracks ∧
      (cfg.barWidth = JSVal.undef →
        (initAnnotSettings hasAnnots cfg).barWidth = JSVal.num 3)) ∧
    (annotLayerEnabled hasAnnots cfg = false →
      (initAnnotSettings hasAnnots cfg).annotTracksHeight = JSVal.num 0) := by
  constructor
  · intro hen
    refine ⟨fun hh => ?_, ?_, ?_, fun hb => ?_⟩
    · simp only [initAnnotSettings, hen]
      split_ifs <;> simp_all
    · simp only [initAnnotSettings, hen]
      cases htr : cfg.annotationTracks <;> split_ifs <;> simp_all
    · simp only [initAnnotSettings, hen]
      split_ifs <;> simp_all
    · simp only [initAnnotSettings, hen]
      split_ifs <;> simp_all
  · intro hen
    simp only [initAnnotSettings, hen]
    split_ifs <;> simp_all

/-- The config of the C9 witness: layer enabled via a remote path, all
derived settings unset, chromosome height 400. -/
def cfgW9 : Config :=
  { annotationsPath := .str "a.json", localAnnotationsPath := .undef,
    annotations := .undef, annotationHeight := .undef, chrHeight := .num 400,
    annotationTracks := none, numAnnotTracks := .undef,
    annotTracksHeight := .undef, barWidth := .undef,
    annotationsColor := .undef, showAnnotTooltip := .undef }

/-- C9 witness: at the concrete enabled config the derived settings take
the claimed values. -/
theorem c9_witness :
    (initAnnotSettings false cfgW9).annotationHeight =
      jsRound (jsDiv cfgW9.chrHeight 100) ∧
    (initAnnotSettings false cfgW9).numAnnotTracks = JSVal.num 1 ∧
    (initAnnotSettings false cfgW9).annotTracksHeight =
      jsMul (initAnnotSettings false cfgW9).annotationHeight
        (initAnnotSettings false cfgW9).numAnnotTracks ∧
    (initAnnotSettings false cfgW9).barWidth = JSVal.num 3 := by
  have hen : annotLayerEnabled false cfgW9 = true := by
    simp [annotLayerEnabled, cfgW9, jsTruthy]
  obtain ⟨h1, h2, h3, h4⟩ := (c9_init_annot_settings false cfgW9).1 hen
  refine ⟨h1 (by simp [cfgW9, jsTruthy]), ?_, h3, h4 (by simp [cfgW9])⟩
  rw [h2]
  rfl

/-- C2 counterexample: `fetchAnnots` called on `data.xyz` — a name whose
extension is neither `bed` nor `json` — does not raise the
unsupported-format alert at all: since the URL does not begin with
`http`, it fetches the configured `annotationsPath`, decodes it as JSON
and commits the result, contradicting the claim. -/
theorem c2_local_path_counterexample :
    extensionOf "data.xyz" = "xyz" ∧
    fetchAnnots "annots.json" "data.xyz" =
      { requestUrl := some "annots.json", decoder := some .jsonBody,
        alertMsg := none, commits := true } := by
  constructor
  · decide
  · decide

/-- C2 (amended): only for `annotsUrl` values beginning with `http`:
when the filename extension (after discarding any query string) is
neither `bed` nor `json`, `fetchAnnots` raises the user-facing alert
naming the uppercased rejected extension, requests nothing, decodes
nothing, and commits no data. -/
theorem c2_unsupported_extension (path url : String)
    (hhttp : url.take 4 = "http")
    (hb : extensionOf url ≠ "bed") (hj : extensionOf url ≠ "json") :
    fetchAnnots path url =
      { requestUrl := none, decoder := none,
        alertMsg := some (unsupportedMsg (jsToUpper (extensionOf url))),
        commits := false } := by
  simp only [fetchAnnots]
  rw [if_neg (by simp [hhttp]), if_pos ⟨hb, hj⟩]

/-- C2 witness: the `http`-prefixed counterpart of the scenario,
`http://example.com/data.xyz`, is rejected with the alert naming `XYZ`,
with no request, no decode and no commit. -/
theorem c2_witness :
    "http://example.com/data.xyz".take 4 = "http" ∧
    extensionOf "http://example.com/data.xyz" ≠ "bed" ∧
    extensionOf "http://example.com/data.xyz" ≠ "json" ∧
    fetchAnnots "annots.json" "http://example.com/data.xyz" =
      { requestUrl := none, decoder := none,
        alertMsg := some (unsupportedMsg "XYZ"), commits := false } := by
  refine ⟨by decide, by decide, by decide, ?_⟩
  rw [c2_unsupported_extension "annots.json" "http://example.com/data.xyz"
    (by decide) (by decide) (by decide)]
  rfl

/-- C10: for every `annotsUrl` not beginning with `http`, `fetchAnnots`
performs no extension inspection: it requests the configured
`annotationsPath` — ignoring the argument's value — and always decodes
the response as JSON, committing the result. -/
theorem c10_non_http_local_json (path url : String)
    (h : url.take 4 ≠ "http") :
    fetchAnnots path url =
      { requestUrl := some path, decoder := some .jsonBody,
        alertMsg := none, commits := true } := by
  simp only [fetchAnnots]
  rw [if_pos h]

/-- C10 witness: `data.bed` — whose extension is `bed` — still takes the
local path: the configured `annotationsPath` is fetched and decoded as
JSON. -/
theorem c10_witness :
    "data.bed".take 4 ≠ "http" ∧
    extensionOf "data.bed" = "bed" ∧
    fetchAnnots "local.json" "data.bed" =
      { requestUrl := some "local.json", decoder := some .jsonBody,
        alertMsg := none, commits := true } :=
  ⟨by decide, by decide,
   c10_non_http_local_json "local.json" "data.bed" (by decide)⟩

/-- C1 witness: at a concrete run whose pixel bounds are 10 and 12 (two
pixels apart), the stored `stop` is the sum of `start` and `length` and
the stored `px` is an integer within the pixel bounds. -/
theorem c1_witness :
    objGet annotX2 "stop" = JSVal.num (10 + 2) ∧
    ∃ z : ℤ, objGet annotX2 "px" = JSVal.num z ∧
      (10 : ℚ) ≤ (z : ℚ) ∧ (z : ℚ) ≤ 12 := by
  have heval : processAnnotData ideoX rawX =
      some ([⟨"2", [annotX2]⟩, ⟨"1", [annotX1]⟩], []) := by
    simp [processAnnotData, processGroups, processRows, processRow,
      buildFields, objSet, objGet, objHas, jsAdd, jsConvert, jsDiv2, jsRound,
      finishAnnot, ideoX, rawX, annotX1, annotX2]
    norm_num [round_eq]
  have h := c1_stop_px_invariants ideoX rawX _ _ ⟨"2", [annotX2]⟩ annotX2
    heval (by simp) (by simp)
  exact ⟨h.1 10 2 (by simp [annotX2, objGet]) (by simp [annotX2, objGet]),
    h.2 10 12 (by simp [annotX2, objGet]) (by simp [annotX2, objGet])
      (by norm_num)⟩

/-- The raw input of the C3 witness: groups in canonical order. -/
def rawW3 : RawAnnots :=
  { keys := ["name", "start", "length"],
    annots := [⟨"1", [[.str "b", .num 20, .num 2]]⟩,
               ⟨"2", [[.str "a", .num 10, .num 2]]⟩] }

/-- The annotation of raw group 0 (chromosome "1") of the C3 witness. -/
def annotW31 : JSObj :=
  [("name", .str "b"), ("start", .num 20), ("length", .num 2),
   ("stop", .num 22), ("trackIndex", .num 0), ("chr", .str "1"),
   ("chrIndex", .num 0), ("px", .num 21), ("startPx", .num 20),
   ("stopPx", .num 22), ("color", .str "#F00"), ("shape", .undef)]

/-- The annotation of raw group 1 (chromosome "2") of the C3 witness. -/
def annotW32 : JSObj :=
  [("name", .str "a"), ("start", .num 10), ("length", .num 2),
   ("stop", .num 12), ("trackIndex", .num 0), ("chr", .str "2"),
   ("chrIndex", .num 1), ("px", .num 11), ("startPx", .num 10),
   ("stopPx", .num 12), ("color", .str "#F00"), ("shape", .undef)]

/-- C3 witness: with raw order matching the canonical order
`["1", "2"]`, the annotation housed at canonical position 1 carries
`chrIndex = 1`. -/
theorem c3_witness : objGet annotW32 "chrIndex" = JSVal.num 1 := by
  have heval : processAnnotData ideoX rawW3 =
      some ([⟨"1", [annotW31]⟩, ⟨"2", [annotW32]⟩], []) := by
    simp [processAnnotData, processGroups, processRows, processRow,
      buildFields, objSet, objGet, objHas, jsAdd, jsConvert, jsDiv2, jsRound,
      finishAnnot, ideoX, rawW3, annotW31, annotW32]
    norm_num [round_eq]
  have hk : (1 : ℕ) < (fillAnnots ideoX.chromosomesArray
      [⟨"1", [annotW31]⟩, ⟨"2", [annotW32]⟩]).length := by
    rw [fillAnnots_length]
    simp [ideoX]
  have hobj : annotW32 ∈ ((fillAnnots ideoX.chromosomesArray
      [⟨"1", [annotW31]⟩, ⟨"2", [annotW32]⟩])[1]).annots := by
    simp [fillAnnots, fillAux, jsIndexOf, ideoX]
  exact c3_chrIndex_raw_order ideoX rawW3 _ [] heval (by decide) (by decide)
    1 hk annotW32 hobj

/-- The canonical chromosome list of the C5 witness. -/
def caW : List ChrEntry := [⟨"1"⟩, ⟨"2"⟩]

/-- The fragment of the C5 witness: only chromosome "2" has data. -/
def lW : List ChrGroup := [⟨"2", [[("name", .str "g")]]⟩]

/-- C5 witness: the reconciled structure has the canonical length and an
empty placeholder at the position of the unmatched chromosome "1". -/
theorem c5_witness :
    (fillAnnots caW lW).length = 2 ∧
    (fillAnnots caW lW)[0]? = some ⟨"1", []⟩ := by
  have h := c5_fill_length_and_placeholders caW lW
  refine ⟨by simpa using h.1, ?_⟩
  have h2 := (h.2 0 (by decide)).2 (by decide)
  simpa using h2

/-- The already-reconciled structure of the C6 witness. -/
def lW6 : List ChrGroup := [⟨"1", []⟩, ⟨"2", []⟩]

/-- C6 witness: reconciling the already-reconciled structure changes
nothing. -/
theorem c6_witness : fillAnnots caW lW6 = lW6 := by
  refine c6_fill_idempotent caW lW6 (by decide) (by decide) ?_
  intro k hk hk2
  have hk3 : k < 2 := by simpa [lW6] using hk
  interval_cases k <;> rfl

/-- The instance of the C7 witness: only chromosome "1" resolvable. -/
def ideoU99 : Ideo Unit :=
  { taxid := "9606",
    chromosomes := fun _ c => if c = "1" then some () else none,
    convertBpToPx := fun _ q => q, annotationsColor := .str "#F00",
    annotationTracks := none, chromosomesArray := [⟨"1"⟩] }

/-- The raw input of the C7 witness: one group on the unresolvable
chromosome "99". -/
def rawU99 : RawAnnots :=
  { keys := ["name", "start", "length"],
    annots := [⟨"99", [[.str "BRCA1", .num 1000, .num 200]]⟩] }

/-- C7 witness: the unresolvable group yields zero output groups, one
warning naming chromosome "99" and its one dropped annotation, and no
exception. -/
theorem c7_witness :
    processAnnotData ideoU99 rawU99 = some ([], [warnMsg "99" 1]) ∧
    (processAnnotData ideoU99 rawU99).isSome = true := by
  refine ⟨?_, (c7_unknown_chromosome_warning ideoU99 rawU99).2 rfl⟩
  simp [processAnnotData, processGroups, ideoU99, rawU99, warnMsg]

end Ideogram
